import Mathlib

/-!
Shallow embedding of the timeline core of nachat (src/TimelineView.cpp):
the event record model, the event stream operations append and redact,
the block partitioner, and the selection resolution algebra.  All
definitions are translated from TimelineView.cpp; the few declarations
whose header or library source is not part of the sources at hand are
modelled from the specification and marked as such in their doc comments.
Machine timestamps are modelled as integer milliseconds, Qt text
positions and lengths as integers.
-/

namespace Nachat

/-- Event payload (matrix::event::Content), modelled as a list of
key-value pairs of the decoded JSON object. -/
structure Content where
  pairs : List (String × String)
  deriving DecidableEq, Repr

/-- Redaction event (matrix::event::room::Redaction), narrowed to the
fields read by TimelineView.cpp: the target event identifier and the
optional reason. -/
structure Redaction where
  redacts : String
  reason : Option String
  deriving DecidableEq, Repr

/-- Confirmed room event (matrix::event::Room), narrowed to the fields
read by TimelineView.cpp: protocol event id, the transaction id from the
unsigned data (none when either is absent), sender, origin server
timestamp, content, and the redaction recorded against it, if any. -/
structure Room where
  eventId : String
  transactionId : Option String
  sender : String
  originTs : Int
  content : Content
  redactedBecause : Option Redaction
  deriving DecidableEq, Repr

/-- Modelled from the spec: the redacted form of an event payload.  The
library code of matrix::event::Room::redact is not among the sources;
section 4.2 of the spec says redaction mutates the underlying source
content to its redacted form, and section 8 renders such a record as
REDACTED, so the redacted form is modelled as the cleared payload. -/
def redactedContent : Content := ⟨[]⟩

/-- Modelled from the spec: matrix::event::Room::redact (library code,
not among the sources).  Replaces the content by its redacted form and
records the redaction that caused it. -/
def Room.redact (ev : Room) (because : Redaction) : Room :=
  { ev with content := redactedContent, redactedBecause := some because }

/-- Timeline event record (EventLike, TimelineView.cpp lines 160-200 and
its header).  Narrowed to the fields the verified operations read: the
process-local identifier, sender, optional timestamp (cleared by
redaction), content, and the optional underlying confirmed event (absent
for pending records).  The member-profile snapshot fields are not
modelled. -/
structure EventLike where
  id : Nat
  sender : String
  time : Option Int
  content : Content
  event : Option Room
  deriving DecidableEq, Repr

/-- EventLike construction from a confirmed room event (TimelineView.cpp
line 160): sender, time and content are taken from the raw event and the
record keeps the confirmed source. -/
def EventLike.ofRoom (i : Nat) (evt : Room) : EventLike :=
  { id := i, sender := evt.sender, time := some evt.originTs,
    content := evt.content, event := some evt }

/-- EventLike::redact (TimelineView.cpp lines 195-200).  Throws a logic
error when the record has no underlying confirmed event, modelled as
none; otherwise redacts the underlying event in place, clears the time
and replaces the content by the redacted event content. -/
def EventLike.redact (e : EventLike) (because : Redaction) : Option EventLike :=
  match e.event with
  | none => none
  | some ev =>
    let ev2 := ev.redact because
    some { e with event := some ev2, time := none, content := ev2.content }

/-- Pending record (Pending in the TimelineView header, spec section 3):
an event record plus the client transaction token used to match the
confirmed echo. -/
structure Pending where
  transaction : String
  event : EventLike
  deriving DecidableEq, Repr

/-- Pagination batch: a run of confirmed records sharing one pagination
cursor. -/
structure Batch where
  begin : String
  events : List EventLike
  deriving DecidableEq, Repr

/-- The mutable state of TimelineView that the stream operations touch:
batches (front of the list = oldest), the pending queue, the id counter
behind get_id, and the at_bottom_ flag. -/
structure TimelineState where
  batches : List Batch
  pending : List Pending
  idCounter : Nat
  atBottom : Bool
  deriving DecidableEq, Repr

/-- All confirmed events of a batch list in chronological order. -/
def batchEvents (bs : List Batch) : List EventLike :=
  (bs.map Batch.events).flatten

/-- The full event sequence that rebuild_blocks walks (TimelineView.cpp
lines 1152-1180): all confirmed batch events in order, followed by the
pending queue events when the view is at the live edge. -/
def allEvents (s : TimelineState) : List EventLike :=
  batchEvents s.batches ++ (if s.atBottom then s.pending.map Pending.event else [])

/-- Append a record to the newest batch when its cursor matches, else
open a new newest batch (TimelineView.cpp lines 911-915). -/
def pushBack (beg : String) (e : EventLike) : List Batch → List Batch
  | [] => [⟨beg, [e]⟩]
  | [b] =>
    if b.begin = beg then [⟨b.begin, b.events ++ [e]⟩]
    else [b, ⟨beg, [e]⟩]
  | b :: rest => b :: pushBack beg e rest

/-- Scan of the pending queue for the first record with the given
transaction token, returning it and the queue with it removed
(the find-and-erase in TimelineView.cpp lines 899-907). -/
def findPending (tx : String) : List Pending → Option (Pending × List Pending)
  | [] => none
  | p :: rest =>
    if p.transaction = tx then some (p, rest)
    else (findPending tx rest).map (fun q => (q.1, p :: q.2))

/-- TimelineView::append (TimelineView.cpp lines 895-919).  When the raw
event carries a transaction id, the code takes the first pending record
with that token, reuses its identifier and erases it; when no pending
record matches, the code dereferences and erases the end iterator of the
pending queue, which is undefined behaviour, modelled as none.  Without
a transaction id a fresh identifier is drawn from the counter.  The new
record goes to the newest batch with a matching cursor, else to a fresh
newest batch. -/
def TimelineView.append (beg : String) (evt : Room) (s : TimelineState) :
    Option TimelineState :=
  match evt.transactionId with
  | some tx =>
    match findPending tx s.pending with
    | none => none
    | some (p, rest) =>
      some { s with
              batches := pushBack beg (EventLike.ofRoom p.event.id evt) s.batches,
              pending := rest }
  | none =>
    some { s with
            batches := pushBack beg (EventLike.ofRoom s.idCounter evt) s.batches,
            idCounter := s.idCounter + 1 }

/-- Inner scan of TimelineView::redact over one batch (TimelineView.cpp
lines 923-932): compare each record's underlying event id against the
redaction target, redact the first match in place and stop.  The
comparison dereferences the optional source, so a sourceless record is
undefined behaviour, modelled as none.  The boolean reports whether the
match was found in this batch. -/
def redactScanEvents (red : Redaction) : List EventLike → Option (List EventLike × Bool)
  | [] => some ([], false)
  | e :: rest =>
    match e.event with
    | none => none
    | some ev =>
      if ev.eventId = red.redacts then
        (e.redact red).map (fun e2 => (e2 :: rest, true))
      else
        (redactScanEvents red rest).map (fun q => (e :: q.1, q.2))

/-- Outer scan of TimelineView::redact over the batches (TimelineView.cpp
lines 921-932): batches are scanned in order and the scan stops at the
batch containing the first match. -/
def redactBatches (red : Redaction) : List Batch → Option (List Batch)
  | [] => some []
  | b :: bs =>
    (redactScanEvents red b.events).bind (fun q =>
      if q.2 then some (⟨b.begin, q.1⟩ :: bs)
      else (redactBatches red bs).map (fun bs2 => ⟨b.begin, q.1⟩ :: bs2))

/-- TimelineView::redact (TimelineView.cpp lines 921-937), restricted to
its effect on the stream state. -/
def TimelineView.redact (red : Redaction) (s : TimelineState) : Option TimelineState :=
  (redactBatches red s.batches).map (fun bs => { s with batches := bs })

/-- The block merge interval (TimelineView.cpp line 33), in
milliseconds: five minutes. -/
def BLOCK_MERGE_INTERVAL : Int := 5 * 60 * 1000

/-- block_border (TimelineView.cpp lines 1147-1150): whether two
adjacent events must go to distinct blocks.  True when the senders
differ, when either event lacks a timestamp, or when the time difference
exceeds the merge interval. -/
def block_border (a b : EventLike) : Bool :=
  decide (b.sender ≠ a.sender) ||
    match b.time, a.time with
    | some tb, some ta => decide (tb - ta > BLOCK_MERGE_INTERVAL)
    | _, _ => true

/-- The run-buffer loop of TimelineView::rebuild_blocks (lines
1152-1180).  The first argument is the current run in reverse order
(head = most recently pushed event, the back of the C++ buffer). -/
def rbGo : List EventLike → List EventLike → List (List EventLike)
  | acc, [] => [acc.reverse]
  | [], e :: rest => rbGo [e] rest
  | a :: acc, e :: rest =>
    if block_border a e then (a :: acc).reverse :: rbGo [e] rest
    else rbGo (e :: a :: acc) rest

/-- TimelineView::rebuild_blocks (lines 1152-1180) as a pure function
from the walked event sequence to the list of block event runs: close
the run whenever block_border holds between the run's last member and
the next event, and close the final non-empty run at the end. -/
def rebuild_blocks : List EventLike → List (List EventLike)
  | [] => []
  | e :: rest => rbGo [e] rest

/-- The time_ member computed by the EventBlock constructor
(TimelineView.cpp lines 202-250, in particular 218-220): events[0] on an
empty run and dereferencing an absent last timestamp are undefined
behaviour, modelled as the outer none; otherwise some none when the
front event has no timestamp, and some (some (start, end)) taken from
the first and last events otherwise. -/
def blockTimeInfo (events : List EventLike) : Option (Option (Int × Int)) :=
  match events.head? with
  | none => none
  | some front =>
    match front.time with
    | none => some none
    | some ts =>
      match events.getLast? with
      | none => none
      | some lastE =>
        match lastE.time with
        | none => none
        | some te => some (some (ts, te))

/-- Cursor region kinds (Cursor::Type in the TimelineView header, spec
section 3). -/
inductive CursorType where
  | NAME
  | TIMESTAMP
  | BODY
  deriving DecidableEq, Repr

/-- Cursor (TimelineView header; fields per spec section 3): region
type, owning event identifier, paragraph index (zero outside BODY), and
character offset. -/
structure Cursor where
  type : CursorType
  event : Nat
  paragraph : Nat
  pos : Int
  deriving DecidableEq, Repr

/-- Selection granularity (Selection::Mode in the TimelineView header). -/
inductive SelectionMode where
  | CHARACTER
  | WORD
  | PARAGRAPH
  deriving DecidableEq, Repr

/-- Selection (TimelineView header, spec section 3): two unordered
endpoint cursors plus the granularity mode. -/
structure Selection where
  begin : Cursor
  end_ : Cursor
  mode : SelectionMode
  deriving DecidableEq, Repr

/-- The laid-out text of one region, as selection_for consumes it: the
text length, and the word boundary queries of the external layout
engine (QTextLayout nextCursorPosition / previousCursorPosition with
SkipWords). -/
structure Layout where
  textLen : Int
  nextWordPos : Int → Int
  prevWordPos : Int → Int

/-- A highlighted character range (struct TextRange, TimelineView.cpp
lines 334-336). -/
structure TextRange where
  start : Int
  length : Int
  deriving DecidableEq, Repr

/-- struct SelectionResult (TimelineView.cpp lines 353-356): the
continuation flag handed to the region above plus the affected range. -/
structure SelectionResult where
  continues : Bool
  affected : TextRange
  deriving DecidableEq, Repr

/-- cursor_in (TimelineView.cpp lines 358-360): whether a cursor
addresses the region with the given event id, region type and paragraph
index. -/
def cursor_in (c : Cursor) (i : Nat) (t : CursorType) (paragraph : Nat) : Bool :=
  decide (c.event = i) && decide (c.type = t) && decide (c.paragraph = paragraph)

/-- selection_for (TimelineView.cpp lines 362-406): resolve the
highlight of one region given the threaded continues-from-below flag,
then apply the granularity-mode adjustment. -/
def selection_for (i : Nat) (t : CursorType) (layout : Layout)
    (bottom_selected : Bool) (selection : Selection) (paragraph : Nat) :
    Option SelectionResult :=
  let begin_applies := cursor_in selection.begin i t paragraph
  let end_applies := cursor_in selection.end_ i t paragraph
  let base : Option SelectionResult :=
    if begin_applies && end_applies then
      let lo := min selection.begin.pos selection.end_.pos
      some { continues := false,
             affected := { start := lo,
                           length := max selection.begin.pos selection.end_.pos - lo } }
    else if begin_applies || end_applies then
      let endpoint := if begin_applies then selection.begin.pos else selection.end_.pos
      if bottom_selected then
        some { continues := false,
               affected := { start := max 0 endpoint,
                             length := layout.textLen - max 0 endpoint } }
      else
        some { continues := true,
               affected := { start := 0,
                             length := min layout.textLen endpoint } }
    else if bottom_selected then
      some { continues := true,
             affected := { start := 0, length := layout.textLen } }
    else
      none
  base.map (fun r =>
    match selection.mode with
    | SelectionMode.CHARACTER => r
    | SelectionMode.WORD =>
      { r with affected :=
          { start := layout.prevWordPos r.affected.start,
            length := layout.nextWordPos (r.affected.start + r.affected.length) } }
    | SelectionMode.PARAGRAPH =>
      { r with affected := { start := 0, length := layout.textLen } })

/-- One addressable region of the bottom-to-top traversal of
EventBlock::draw and selection_text (TimelineView.cpp lines 424-451 and
644-678): its addressing key plus its layout. -/
structure Region where
  id : Nat
  type : CursorType
  paragraph : Nat
  layout : Layout

/-- The selection traversal of EventBlock::draw / selection_text
(TimelineView.cpp lines 424-451): regions are visited bottom-to-top; the
flag is replaced by the region's continuation flag exactly when
selection_for produced a result; the per-region results are collected in
traversal order. -/
def resolveRegions (sel : Selection) : Bool → List Region → List (Option SelectionResult)
  | _, [] => []
  | flag, r :: rest =>
    match selection_for r.id r.type r.layout flag sel r.paragraph with
    | some s => some s :: resolveRegions sel s.continues rest
    | none => none :: resolveRegions sel flag rest

/-- The addressing key of a cursor, matching cursor_in. -/
def cursorKey (c : Cursor) : Nat × CursorType × Nat :=
  (c.event, c.type, c.paragraph)

/-! ### Concrete sample data used by witnesses and counterexamples -/

/-- A raw confirmed event carrying the transaction token x1. -/
def roomX1 : Room :=
  { eventId := "e1", transactionId := some "x1", sender := "alice",
    originTs := 1000, content := ⟨[("body", "hi")]⟩, redactedBecause := none }

/-- A raw confirmed event without a transaction token. -/
def roomNoTx : Room :=
  { eventId := "e2", transactionId := none, sender := "alice",
    originTs := 2000, content := ⟨[("body", "there")]⟩, redactedBecause := none }

/-- A timeline state with an empty pending queue. -/
def stEmptyPending : TimelineState :=
  { batches := [], pending := [], idCounter := 0, atBottom := true }

/-- A pending (sourceless) record. -/
def pendingRecord0 : EventLike :=
  { id := 3, sender := "alice", time := some 5,
    content := ⟨[("body", "hi")]⟩, event := none }

/-- A confirmed record built from roomNoTx. -/
def confirmedRecord0 : EventLike := EventLike.ofRoom 4 roomNoTx

/-- A concrete redaction. -/
def redX : Redaction := { redacts := "e2", reason := none }

/-- A second concrete redaction of the same target. -/
def redY : Redaction := { redacts := "e2", reason := some "spam" }

/-- confirmedRecord0 after one application of the redaction applicator. -/
def redactedRecord0 : EventLike :=
  { confirmedRecord0 with event := some (roomNoTx.redact redX),
                          time := none, content := redactedContent }

/-- redactedRecord0 after a second application of the redaction
applicator. -/
def redactedRecord1 : EventLike :=
  { redactedRecord0 with event := some ((roomNoTx.redact redX).redact redY),
                         time := none, content := redactedContent }

/-- A layout whose word-boundary queries are the identity; regions
resolved in CHARACTER mode never consult them. -/
def layoutC : Layout := ⟨10, fun p => p, fun p => p⟩

/-- The word boundaries of the eight-character region text aa bb cc. -/
def wordBoundariesW : List Int := [0, 3, 6, 8]

/-- A layout for the region text aa bb cc: length 8, and the layout
engine's forward and backward word-boundary queries for its word
boundaries 0, 3, 6, 8. -/
def layoutW : Layout :=
  { textLen := 8
    nextWordPos := fun p =>
      if p ≤ 0 then 0 else if p ≤ 3 then 3 else if p ≤ 6 then 6 else 8
    prevWordPos := fun p =>
      if p < 3 then 0 else if p < 6 then 3 else if p < 8 then 6 else 8 }

/-- A WORD-mode selection with both endpoints inside region (BODY, event
7, paragraph 0), at offsets 4 and 5 (inside the word bb). -/
def selW4 : Selection :=
  { begin := { type := CursorType.BODY, event := 7, paragraph := 0, pos := 4 }
    end_ := { type := CursorType.BODY, event := 7, paragraph := 0, pos := 5 }
    mode := SelectionMode.WORD }

/-- A CHARACTER-mode selection whose begin endpoint addresses region
(BODY, event 7, paragraph 0) at offset 4 and whose end endpoint lies in
another region. -/
def selC : Selection :=
  { begin := { type := CursorType.BODY, event := 7, paragraph := 0, pos := 4 }
    end_ := { type := CursorType.NAME, event := 9, paragraph := 0, pos := 2 }
    mode := SelectionMode.CHARACTER }

/-- A CHARACTER-mode selection fully contained in region (BODY, event 2,
paragraph 1), endpoints at offsets 3 and 1. -/
def selC5 : Selection :=
  { begin := { type := CursorType.BODY, event := 2, paragraph := 1, pos := 3 }
    end_ := { type := CursorType.BODY, event := 2, paragraph := 1, pos := 1 }
    mode := SelectionMode.CHARACTER }

/-- A region not addressed by selC5. -/
def regA5 : Region := { id := 9, type := CursorType.NAME, paragraph := 0, layout := layoutC }

/-- The region addressed by both endpoints of selC5. -/
def regB5 : Region := { id := 2, type := CursorType.BODY, paragraph := 1, layout := layoutC }

/-- A pending record carrying transaction token x1. -/
def pendingX1 : Pending := ⟨"x1", pendingRecord0⟩

/-- A state with one confirmed batch and the pending record pendingX1. -/
def stWithPending : TimelineState :=
  { batches := [⟨"b0", [confirmedRecord0]⟩], pending := [pendingX1],
    idCounter := 5, atBottom := true }

/-- A redaction whose target matches no record in stWithPending. -/
def redZ : Redaction := { redacts := "zzz", reason := none }

/-- A first timed event by alice. -/
def eA : EventLike :=
  { id := 0, sender := "alice", time := some 0, content := ⟨[]⟩, event := none }

/-- A second timed event by alice one minute later. -/
def eB : EventLike :=
  { id := 1, sender := "alice", time := some 60000, content := ⟨[]⟩, event := none }

/-! ### Theorems -/

theorem cursor_in_eq_true_iff (c : Cursor) (i : Nat) (t : CursorType) (par : Nat) :
    cursor_in c i t par = true ↔ cursorKey c = (i, t, par) := by
  simp [cursor_in, cursorKey, Prod.ext_iff, and_assoc]

/-- C1: the claim says an append whose raw event carries a transaction
token matching no pending record assigns a fresh identifier and
completes without error, leaving the pending queue unchanged.  The code
(TimelineView.cpp lines 899-907) instead falls off the find loop with
the end iterator, dereferences it and erases it: undefined behaviour,
modelled as none.  Evaluating the embedded append at the failing input
(token x1, empty pending queue) reports the failure. -/
theorem c1_append_unmatched_token_crashes :
    TimelineView.append "b0" roomX1 stEmptyPending = none := rfl

/-- C8: the redaction applicator fails fatally (none) on a record with
no underlying confirmed source, and on a record with a confirmed source
it clears the time to absent and replaces the content with the redacted
content of the underlying event. -/
theorem c8_redaction_applicator (e : EventLike) (because : Redaction) :
    (e.event = none → e.redact because = none) ∧
    (∀ ev, e.event = some ev →
      ∃ e2, e.redact because = some e2 ∧ e2.time = none ∧
        e2.content = (ev.redact because).content ∧
        e2.event = some (ev.redact because) ∧
        e2.id = e.id ∧ e2.sender = e.sender) := by
  constructor
  · intro h
    simp [EventLike.redact, h]
  · intro ev h
    refine ⟨{ e with event := some (ev.redact because), time := none,
                     content := (ev.redact because).content },
            ?_, rfl, rfl, rfl, rfl, rfl⟩
    simp [EventLike.redact, h]

/-- Witness for C8 at concrete records. -/
theorem c8_witness :
    (EventLike.redact pendingRecord0 redX = none) ∧
    (∃ e2, EventLike.redact confirmedRecord0 redX = some e2 ∧ e2.time = none ∧
      e2.content = (roomNoTx.redact redX).content ∧
      e2.event = some (roomNoTx.redact redX) ∧
      e2.id = confirmedRecord0.id ∧ e2.sender = confirmedRecord0.sender) :=
  ⟨(c8_redaction_applicator pendingRecord0 redX).1 rfl,
   (c8_redaction_applicator confirmedRecord0 redX).2 roomNoTx rfl⟩

/-- C9: redacting an already-redacted confirmed record a second time is
a no-op on the record's observables named by the claim: its time stays
absent and its content stays the redacted content. -/
theorem c9_redact_idempotent (e e1 e2 : EventLike) (r1 r2 : Redaction)
    (h1 : e.redact r1 = some e1) (h2 : e1.redact r2 = some e2) :
    e1.time = none ∧ e1.content = redactedContent ∧
    e2.time = e1.time ∧ e2.content = e1.content := by
  cases he : e.event with
  | none => simp [EventLike.redact, he] at h1
  | some ev =>
    simp only [EventLike.redact, he, Option.some.injEq] at h1
    subst h1
    simp only [EventLike.redact, Option.some.injEq] at h2
    subst h2
    simp [Room.redact, redactedContent]

/-- Witness for C9 at a concrete record redacted twice. -/
theorem c9_witness :
    redactedRecord0.time = none ∧ redactedRecord0.content = redactedContent ∧
    redactedRecord1.time = redactedRecord0.time ∧
    redactedRecord1.content = redactedRecord0.content :=
  c9_redact_idempotent confirmedRecord0 redactedRecord0 redactedRecord1 redX redY rfl rfl

/-- C6: per-region CHARACTER-mode resolution when exactly one selection
endpoint addresses the region.  With the continues-from-below flag set,
the highlight runs from the endpoint's offset to the end of the region's
text and the outgoing flag is false; with the flag clear, the highlight
runs from the start of the region's text to the endpoint's offset and
the outgoing flag is true. -/
theorem c6_single_endpoint (i : Nat) (t : CursorType) (layout : Layout)
    (sel : Selection) (par : Nat)
    (hmode : sel.mode = SelectionMode.CHARACTER)
    (hone : cursor_in sel.begin i t par ≠ cursor_in sel.end_ i t par)
    (h0 : 0 ≤ (if cursor_in sel.begin i t par then sel.begin.pos else sel.end_.pos))
    (h1 : (if cursor_in sel.begin i t par then sel.begin.pos else sel.end_.pos)
            ≤ layout.textLen) :
    selection_for i t layout true sel par =
      some { continues := false,
             affected :=
               { start := if cursor_in sel.begin i t par then sel.begin.pos
                          else sel.end_.pos,
                 length := layout.textLen -
                   (if cursor_in sel.begin i t par then sel.begin.pos
                    else sel.end_.pos) } } ∧
    selection_for i t layout false sel par =
      some { continues := true,
             affected :=
               { start := 0,
                 length := if cursor_in sel.begin i t par then sel.begin.pos
                           else sel.end_.pos } } := by
  cases hb : cursor_in sel.begin i t par with
  | true =>
    have he : cursor_in sel.end_ i t par = false := by
      cases hee : cursor_in sel.end_ i t par
      · rfl
      · exact absurd (hb.trans hee.symm) hone
    simp [hb] at h0 h1
    constructor <;>
      simp [selection_for, hb, he, hmode, max_eq_right h0, min_eq_right h1]
  | false =>
    have he : cursor_in sel.end_ i t par = true := by
      cases hee : cursor_in sel.end_ i t par
      · exact absurd (hb.trans hee.symm) hone
      · rfl
    simp [hb] at h0 h1
    constructor <;>
      simp [selection_for, hb, he, hmode, max_eq_right h0, min_eq_right h1]

/-- Witness for C6: concrete layout of length 10, begin endpoint at
offset 4 inside the region, end endpoint elsewhere. -/
theorem c6_witness :
    selection_for 7 CursorType.BODY layoutC true selC 0 =
      some { continues := false, affected := { start := 4, length := 6 } } ∧
    selection_for 7 CursorType.BODY layoutC false selC 0 =
      some { continues := true, affected := { start := 0, length := 4 } } := by
  have h := c6_single_endpoint 7 CursorType.BODY layoutC selC 0 rfl
    (by decide) (by decide) (by decide)
  simpa [selC, layoutC, cursor_in] using h

/-- C4: the claim says WORD mode snaps both boundaries of the returned
range outward to word boundaries within the region's text.
Counterexample at the region text aa bb cc (length 8, word boundaries 0,
3, 6, 8) with both endpoints in the region at offsets 4 and 5: the code
(TimelineView.cpp lines 394-397) stores the absolute forward boundary
position nextCursorPosition(5) = 6 into the range length after moving
the start to 3, so the resolved range is [3, 3+6): its end 9 lies past
the region text and is no word boundary, where the snapped end would be
6.  (The PARAGRAPH half of the claim is not at issue.) -/
theorem c4_word_mode_not_snapped :
    selection_for 7 CursorType.BODY layoutW false selW4 0 =
      some { continues := false, affected := { start := 3, length := 6 } } ∧
    layoutW.textLen = 8 ∧ layoutW.nextWordPos 5 = 6 ∧
    ((3 : Int) + 6) ∉ wordBoundariesW := by
  decide

/-- selection_for when both endpoints address the region, in CHARACTER
mode: the range spans between the two offsets and the selection does not
continue. -/
theorem selection_for_both (i : Nat) (t : CursorType) (layout : Layout)
    (flag : Bool) (sel : Selection) (par : Nat)
    (hb : cursor_in sel.begin i t par = true)
    (he : cursor_in sel.end_ i t par = true)
    (hmode : sel.mode = SelectionMode.CHARACTER) :
    selection_for i t layout flag sel par =
      some { continues := false,
             affected := { start := min sel.begin.pos sel.end_.pos,
                           length := |sel.begin.pos - sel.end_.pos| } } := by
  have habs : |sel.begin.pos - sel.end_.pos| =
      max sel.end_.pos sel.begin.pos - min sel.end_.pos sel.begin.pos :=
    (max_sub_min_eq_abs sel.end_.pos sel.begin.pos).symm
  simp [selection_for, hb, he, hmode, habs, max_comm, min_comm]

/-- selection_for when neither endpoint addresses the region and the
selection does not continue from below: no highlight. -/
theorem selection_for_none (i : Nat) (t : CursorType) (layout : Layout)
    (sel : Selection) (par : Nat)
    (hb : cursor_in sel.begin i t par = false)
    (he : cursor_in sel.end_ i t par = false) :
    selection_for i t layout false sel par = none := by
  simp [selection_for, hb, he]

/-- C5: for a CHARACTER-mode selection whose two endpoints address the
same region key, the threaded traversal starting with a clear flag
highlights exactly the regions with that key, with range start
min(begin.pos, end.pos), length the absolute offset difference, and a
false continuation flag; every other region reports no highlight. -/
theorem c5_contained_selection (sel : Selection) (rs : List Region)
    (hmode : sel.mode = SelectionMode.CHARACTER)
    (hsame : cursorKey sel.begin = cursorKey sel.end_) :
    resolveRegions sel false rs = rs.map (fun r =>
      if cursorKey sel.begin = (r.id, r.type, r.paragraph) then
        some { continues := false,
               affected := { start := min sel.begin.pos sel.end_.pos,
                             length := |sel.begin.pos - sel.end_.pos| } }
      else none) := by
  induction rs with
  | nil => rfl
  | cons r rest ih =>
    by_cases hk : cursorKey sel.begin = (r.id, r.type, r.paragraph)
    · have hb : cursor_in sel.begin r.id r.type r.paragraph = true :=
        (cursor_in_eq_true_iff _ _ _ _).mpr hk
      have he : cursor_in sel.end_ r.id r.type r.paragraph = true :=
        (cursor_in_eq_true_iff _ _ _ _).mpr (hsame.symm.trans hk)
      simp [resolveRegions,
            selection_for_both r.id r.type r.layout false sel r.paragraph hb he hmode,
            hk, ih]
    · have hb : cursor_in sel.begin r.id r.type r.paragraph = false := by
        cases hcb : cursor_in sel.begin r.id r.type r.paragraph
        · rfl
        · exact absurd ((cursor_in_eq_true_iff _ _ _ _).mp hcb) hk
      have he : cursor_in sel.end_ r.id r.type r.paragraph = false := by
        cases hce : cursor_in sel.end_ r.id r.type r.paragraph
        · rfl
        · exact absurd (hsame.trans ((cursor_in_eq_true_iff _ _ _ _).mp hce)) hk
      simp [resolveRegions,
            selection_for_none r.id r.type r.layout sel r.paragraph hb he,
            hk, ih]

/-- Witness for C5: a two-region traversal where the second region is
the one addressed; the first reports no highlight, the addressed region
reports range start 1, length 2, continuation false. -/
theorem c5_witness :
    resolveRegions selC5 false [regA5, regB5] =
      [none, some { continues := false, affected := { start := 1, length := 2 } }] := by
  rw [c5_contained_selection selC5 [regA5, regB5] rfl rfl]
  decide

theorem batchEvents_pushBack (beg : String) (e : EventLike) (bs : List Batch) :
    batchEvents (pushBack beg e bs) = batchEvents bs ++ [e] := by
  induction bs with
  | nil => simp [pushBack, batchEvents]
  | cons b rest ih =>
    cases rest with
    | nil => by_cases h : b.begin = beg <;> simp [pushBack, h, batchEvents]
    | cons b2 rest2 => simp [pushBack, batchEvents] at ih ⊢; simp [ih]

theorem findPending_first (tx : String) (pre post : List Pending) (p : Pending)
    (hpre : ∀ q ∈ pre, q.transaction ≠ tx) (hp : p.transaction = tx) :
    findPending tx (pre ++ p :: post) = some (p, pre ++ post) := by
  induction pre with
  | nil => simp [findPending, hp]
  | cons q rest ih =>
    have hq : q.transaction ≠ tx := hpre q (by simp)
    simp [findPending, hq, ih (fun r hr => hpre r (by simp [hr]))]

/-- C2: an append whose raw event carries a transaction token equal to
the token of a pending record reuses that first matching pending
record's identifier for the new confirmed record, removes the pending
record from the queue, and (when that identifier occurs nowhere else)
the event sequence walked by rebuild_blocks contains exactly one record
with that identifier. -/
theorem c2_append_dedup (beg : String) (evt : Room) (s : TimelineState) (tx : String)
    (pre post : List Pending) (p : Pending)
    (htx : evt.transactionId = some tx)
    (hsplit : s.pending = pre ++ p :: post)
    (hpre : ∀ q ∈ pre, q.transaction ≠ tx)
    (hp : p.transaction = tx)
    (hidB : ∀ e ∈ batchEvents s.batches, e.id ≠ p.event.id)
    (hidP : ∀ q ∈ pre ++ post, q.event.id ≠ p.event.id) :
    ∃ s2, TimelineView.append beg evt s = some s2 ∧
      s2.pending = pre ++ post ∧
      batchEvents s2.batches =
        batchEvents s.batches ++ [EventLike.ofRoom p.event.id evt] ∧
      (EventLike.ofRoom p.event.id evt).id = p.event.id ∧
      (allEvents s2).countP (fun e => decide (e.id = p.event.id)) = 1 := by
  refine ⟨{ s with batches := pushBack beg (EventLike.ofRoom p.event.id evt) s.batches,
                   pending := pre ++ post }, ?_, rfl, ?_, rfl, ?_⟩
  · simp only [TimelineView.append, htx, hsplit,
               findPending_first tx pre post p hpre hp]
  · exact batchEvents_pushBack beg (EventLike.ofRoom p.event.id evt) s.batches
  · have h0 : (batchEvents s.batches).countP (fun e => decide (e.id = p.event.id)) = 0 :=
      List.countP_eq_zero.mpr (fun e he => by simpa using hidB e he)
    have h1 : List.countP (fun e => decide (e.id = p.event.id))
        (if s.atBottom then (pre ++ post).map Pending.event else []) = 0 := by
      cases s.atBottom
      · simp
      · simp only [if_true]
        exact List.countP_eq_zero.mpr (fun e he => by
          obtain ⟨q, hq, rfl⟩ := List.mem_map.mp he
          simpa using hidP q hq)
    have hAE : allEvents { s with
        batches := pushBack beg (EventLike.ofRoom p.event.id evt) s.batches,
        pending := pre ++ post } =
      batchEvents (pushBack beg (EventLike.ofRoom p.event.id evt) s.batches) ++
        (if s.atBottom then (pre ++ post).map Pending.event else []) := rfl
    rw [hAE, batchEvents_pushBack, List.countP_append, List.countP_append, h0, h1]
    simp [List.countP_cons, EventLike.ofRoom]

/-- Witness for C2: concrete append of the confirmed echo of pendingX1. -/
theorem c2_witness :
    ∃ s2, TimelineView.append "b0" roomX1 stWithPending = some s2 ∧
      s2.pending = [] ∧
      batchEvents stWithPending.batches ++ [EventLike.ofRoom pendingX1.event.id roomX1] =
        batchEvents stWithPending.batches ++ [EventLike.ofRoom pendingX1.event.id roomX1] ∧
      (EventLike.ofRoom pendingX1.event.id roomX1).id = pendingX1.event.id ∧
      (allEvents s2).countP (fun e => decide (e.id = pendingX1.event.id)) = 1 := by
  obtain ⟨s2, h1, h2, h3, h4, h5⟩ :=
    c2_append_dedup "b0" roomX1 stWithPending "x1" [] [] pendingX1
      rfl rfl (by simp) rfl (by decide) (by simp)
  exact ⟨s2, h1, h2, rfl, h4, h5⟩

theorem redactScanEvents_no_match (red : Redaction) (evs : List EventLike)
    (hconf : ∀ e ∈ evs, e.event.isSome)
    (hnm : ∀ e ∈ evs, ∀ ev, e.event = some ev → ev.eventId ≠ red.redacts) :
    redactScanEvents red evs = some (evs, false) := by
  induction evs with
  | nil => rfl
  | cons e rest ih =>
    obtain ⟨ev, hev⟩ := Option.isSome_iff_exists.mp (hconf e (by simp))
    have hne : ev.eventId ≠ red.redacts := hnm e (by simp) ev hev
    simp [redactScanEvents, hev, hne,
          ih (fun x hx => hconf x (by simp [hx])) (fun x hx => hnm x (by simp [hx]))]

theorem redactScanEvents_first (red : Redaction) (preE postE : List EventLike)
    (m : EventLike) (mev : Room)
    (hconf : ∀ e ∈ preE, e.event.isSome)
    (hnm : ∀ e ∈ preE, ∀ ev, e.event = some ev → ev.eventId ≠ red.redacts)
    (hm : m.event = some mev) (hid : mev.eventId = red.redacts) :
    redactScanEvents red (preE ++ m :: postE) =
      some (preE ++ { m with event := some (mev.redact red), time := none,
                             content := (mev.redact red).content } :: postE, true) := by
  induction preE with
  | nil => simp [redactScanEvents, hm, hid, EventLike.redact]
  | cons e rest ih =>
    obtain ⟨ev, hev⟩ := Option.isSome_iff_exists.mp (hconf e (by simp))
    have hne : ev.eventId ≠ red.redacts := hnm e (by simp) ev hev
    simp [redactScanEvents, hev, hne,
          ih (fun x hx => hconf x (by simp [hx])) (fun x hx => hnm x (by simp [hx]))]

theorem redactBatches_no_match (red : Redaction) (bs : List Batch)
    (hconf : ∀ b ∈ bs, ∀ e ∈ b.events, e.event.isSome)
    (hnm : ∀ b ∈ bs, ∀ e ∈ b.events, ∀ ev, e.event = some ev → ev.eventId ≠ red.redacts) :
    redactBatches red bs = some bs := by
  induction bs with
  | nil => rfl
  | cons b rest ih =>
    simp [redactBatches,
          redactScanEvents_no_match red b.events (hconf b (by simp)) (hnm b (by simp)),
          ih (fun x hx => hconf x (by simp [hx])) (fun x hx => hnm x (by simp [hx]))]

theorem redactBatches_first (red : Redaction) (bsPre : List Batch)
    (bsRest : List Batch) (b : Batch)
    (preE postE : List EventLike) (m : EventLike) (mev : Room)
    (hconfPre : ∀ b2 ∈ bsPre, ∀ e ∈ b2.events, e.event.isSome)
    (hnmPre : ∀ b2 ∈ bsPre, ∀ e ∈ b2.events, ∀ ev,
      e.event = some ev → ev.eventId ≠ red.redacts)
    (hconfE : ∀ e ∈ preE, e.event.isSome)
    (hnmE : ∀ e ∈ preE, ∀ ev, e.event = some ev → ev.eventId ≠ red.redacts)
    (hb : b.events = preE ++ m :: postE)
    (hm : m.event = some mev) (hid : mev.eventId = red.redacts) :
    redactBatches red (bsPre ++ b :: bsRest) =
      some (bsPre ++ ⟨b.begin,
        preE ++ { m with event := some (mev.redact red), time := none,
                         content := (mev.redact red).content } :: postE⟩ :: bsRest) := by
  induction bsPre with
  | nil =>
    simp [redactBatches, hb,
          redactScanEvents_first red preE postE m mev hconfE hnmE hm hid]
  | cons b2 rest ih =>
    simp [redactBatches,
          redactScanEvents_no_match red b2.events (hconfPre b2 (by simp))
            (hnmPre b2 (by simp)),
          ih (fun x hx => hconfPre x (by simp [hx]))
             (fun x hx => hnmPre x (by simp [hx]))]

/-- C7: TimelineView::redact scans the confirmed batches in order and
applies the redaction applicator only to the first record whose
underlying event identifier equals the redaction target, leaving every
other record unchanged; when no record matches, the state is returned
unchanged (a silent no-op).  The hypothesis that every batch record has
a confirmed source holds for every state the stream builds, since
batches are populated from raw confirmed events only. -/
theorem c7_redact_first_match (red : Redaction) (s : TimelineState)
    (hconf : ∀ b ∈ s.batches, ∀ e ∈ b.events, e.event.isSome) :
    ((∀ b ∈ s.batches, ∀ e ∈ b.events, ∀ ev,
        e.event = some ev → ev.eventId ≠ red.redacts) →
      TimelineView.redact red s = some s) ∧
    (∀ bsPre b bsRest preE m postE mev,
      s.batches = bsPre ++ b :: bsRest →
      b.events = preE ++ m :: postE →
      (∀ b2 ∈ bsPre, ∀ e ∈ b2.events, ∀ ev,
        e.event = some ev → ev.eventId ≠ red.redacts) →
      (∀ e ∈ preE, ∀ ev, e.event = some ev → ev.eventId ≠ red.redacts) →
      m.event = some mev → mev.eventId = red.redacts →
      TimelineView.redact red s = some { s with batches :=
        bsPre ++ ⟨b.begin,
          preE ++ { m with event := some (mev.redact red), time := none,
                           content := (mev.redact red).content } :: postE⟩ :: bsRest }) := by
  constructor
  · intro hnm
    rw [TimelineView.redact, redactBatches_no_match red s.batches hconf hnm]
    rfl
  · intro bsPre b bsRest preE m postE mev hsb hbe hnmPre hnmE hm hid
    have hconfPre : ∀ b2 ∈ bsPre, ∀ e ∈ b2.events, e.event.isSome := by
      intro b2 hb2 e he
      exact hconf b2 (hsb ▸ List.mem_append_left _ hb2) e he
    have hbmem : b ∈ s.batches := hsb ▸ List.mem_append_right _ (by simp)
    have hconfE : ∀ e ∈ preE, e.event.isSome := by
      intro e he
      exact hconf b hbmem e (hbe ▸ List.mem_append_left _ he)
    rw [TimelineView.redact, hsb,
        redactBatches_first red bsPre bsRest b preE postE m mev
          hconfPre hnmPre hconfE hnmE hbe hm hid]
    rfl

/-- Witness for C7: a concrete redaction with no matching target is a
silent no-op on a concrete state. -/
theorem c7_witness : TimelineView.redact redZ stWithPending = some stWithPending := by
  refine (c7_redact_first_match redZ stWithPending ?_).1 ?_
  · intro b hb e he
    rw [show stWithPending.batches = [⟨"b0", [confirmedRecord0]⟩] from rfl,
        List.mem_singleton] at hb
    subst hb
    rw [List.mem_singleton] at he
    subst he
    rfl
  · intro b hb e he ev hev
    rw [show stWithPending.batches = [⟨"b0", [confirmedRecord0]⟩] from rfl,
        List.mem_singleton] at hb
    subst hb
    rw [List.mem_singleton] at he
    subst he
    have hev2 : some roomNoTx = some ev := hev
    injection hev2 with h2
    subst h2
    decide

theorem block_border_eq_false_iff (a b : EventLike) :
    block_border a b = false ↔
      b.sender = a.sender ∧ ∃ ta tb, a.time = some ta ∧ b.time = some tb ∧
        tb - ta ≤ BLOCK_MERGE_INTERVAL := by
  rw [block_border]
  cases hat : a.time with
  | none => cases hbt : b.time <;> simp
  | some ta =>
    cases hbt : b.time with
    | none => simp
    | some tb =>
      show (decide ¬(b.sender = a.sender) ||
        decide (tb - ta > BLOCK_MERGE_INTERVAL)) = false ↔ _
      rw [Bool.or_eq_false_iff, decide_eq_false_iff_not, decide_eq_false_iff_not,
          not_not, not_lt]
      constructor
      · rintro ⟨hs, hle⟩
        exact ⟨hs, ta, tb, rfl, rfl, hle⟩
      · rintro ⟨hs, ta2, tb2, h1, h2, h3⟩
        injection h1 with h1
        injection h2 with h2
        subst h1; subst h2
        exact ⟨hs, h3⟩

theorem rbGo_flatten (l : List EventLike) :
    ∀ acc, (rbGo acc l).flatten = acc.reverse ++ l := by
  induction l with
  | nil => intro acc; simp [rbGo]
  | cons e rest ih =>
    intro acc
    cases acc with
    | nil => simpa [rbGo] using ih [e]
    | cons a acc2 =>
      cases hb : block_border a e
      · simpa [rbGo, hb] using ih (e :: a :: acc2)
      · simpa [rbGo, hb] using ih [e]

theorem rbGo_first_block (l : List EventLike) :
    ∀ acc, ∃ suf bs, rbGo acc l = (acc.reverse ++ suf) :: bs := by
  induction l with
  | nil => intro acc; exact ⟨[], [], by simp [rbGo]⟩
  | cons e rest ih =>
    intro acc
    cases acc with
    | nil =>
      obtain ⟨suf, bs, h⟩ := ih [e]
      exact ⟨e :: suf, bs, by simpa [rbGo] using h⟩
    | cons a acc2 =>
      cases hb : block_border a e
      · obtain ⟨suf, bs, h⟩ := ih (e :: a :: acc2)
        refine ⟨e :: suf, bs, ?_⟩
        simp only [rbGo, hb, Bool.false_eq_true, if_false]
        rw [h]
        simp
      · exact ⟨[], rbGo [e] rest, by simp [rbGo, hb]⟩

theorem rbGo_nonempty (l : List EventLike) :
    ∀ acc, acc ≠ [] → ∀ bl ∈ rbGo acc l, bl ≠ [] := by
  induction l with
  | nil =>
    intro acc hacc bl hbl
    simp [rbGo] at hbl
    subst hbl
    simpa using hacc
  | cons e rest ih =>
    intro acc hacc bl hbl
    cases acc with
    | nil => exact absurd rfl hacc
    | cons a acc2 =>
      cases hb : block_border a e
      · simp only [rbGo, hb, Bool.false_eq_true, if_false] at hbl
        exact ih (e :: a :: acc2) (by simp) bl hbl
      · simp only [rbGo, hb, if_true] at hbl
        rcases List.mem_cons.mp hbl with h | h
        · subst h; simp
        · exact ih [e] (by simp) bl h

theorem rbGo_chain_within (l : List EventLike) :
    ∀ acc, List.Chain' (fun a b => block_border a b = false) acc.reverse →
      ∀ bl ∈ rbGo acc l, List.Chain' (fun a b => block_border a b = false) bl := by
  induction l with
  | nil =>
    intro acc hacc bl hbl
    simp [rbGo] at hbl
    subst hbl
    exact hacc
  | cons e rest ih =>
    intro acc hacc bl hbl
    cases acc with
    | nil =>
      simp only [rbGo] at hbl
      exact ih [e] (by simp) bl hbl
    | cons a acc2 =>
      cases hb : block_border a e
      · simp only [rbGo, hb, Bool.false_eq_true, if_false] at hbl
        refine ih (e :: a :: acc2) ?_ bl hbl
        rw [List.reverse_cons]
        refine List.chain'_append.mpr ⟨hacc, by simp, ?_⟩
        intro x hx y hy
        rw [List.getLast?_reverse] at hx
        simp at hx hy
        subst hx; subst hy
        exact hb
      · simp only [rbGo, hb, if_true] at hbl
        rcases List.mem_cons.mp hbl with h | h
        · subst h; exact hacc
        · exact ih [e] (by simp) bl h

theorem rbGo_chain_border (l : List EventLike) :
    ∀ acc, List.Chain'
      (fun b1 b2 => ∀ x y, b1.getLast? = some x → b2.head? = some y →
        block_border x y = true) (rbGo acc l) := by
  induction l with
  | nil => intro acc; simp [rbGo]
  | cons e rest ih =>
    intro acc
    cases acc with
    | nil =>
      simp only [rbGo]
      exact ih [e]
    | cons a acc2 =>
      cases hb : block_border a e
      · simp only [rbGo, hb, Bool.false_eq_true, if_false]
        exact ih (e :: a :: acc2)
      · simp only [rbGo, hb, if_true]
        obtain ⟨suf, bs, hfb⟩ := rbGo_first_block rest [e]
        refine List.chain'_cons'.mpr ⟨?_, ih [e]⟩
        intro bl2 hbl2 x y hx hy
        rw [hfb] at hbl2
        simp at hbl2
        subst hbl2
        rw [List.getLast?_reverse] at hx
        simp at hx hy
        subst hx; subst hy
        exact hb

theorem chain_nonborder_all_times (bl : List EventLike)
    (hch : List.Chain' (fun a b => block_border a b = false) bl)
    (hlen : 2 ≤ bl.length) : ∀ e ∈ bl, e.time.isSome := by
  induction bl with
  | nil => simp at hlen
  | cons x rest ih =>
    intro e he
    cases rest with
    | nil => simp at hlen
    | cons y rest2 =>
      have hxy : block_border x y = false := (List.chain'_cons.mp hch).1
      obtain ⟨-, ta, tb, h1, h2, -⟩ := (block_border_eq_false_iff x y).mp hxy
      rcases List.mem_cons.mp he with rfl | he2
      · simp [h1]
      · cases rest2 with
        | nil =>
          rw [List.mem_singleton] at he2
          subst he2
          simp [h2]
        | cons z rest3 =>
          exact ih (List.chain'_cons.mp hch).2 (by simp) e he2

/-- C3: the claim's boundary rule for the rebuilt block partition.  The
produced blocks flatten back to the walked event sequence; within every
block all adjacent event pairs satisfy the merge condition
(block_border false); between consecutive blocks the boundary pair
always violates it (block_border true); and for chronologically ordered
timestamps the merge condition is exactly: equal sender, both
timestamps present, and the later minus the earlier at most the
five-minute interval, while a missing timestamp or differing sender
always forces a border. -/
theorem c3_boundary_rule (evts : List EventLike) :
    (rebuild_blocks evts).flatten = evts ∧
    (∀ bl ∈ rebuild_blocks evts,
      List.Chain' (fun a b => block_border a b = false) bl) ∧
    List.Chain' (fun b1 b2 => ∀ x y, b1.getLast? = some x → b2.head? = some y →
      block_border x y = true) (rebuild_blocks evts) ∧
    (∀ a b ta tb, a.time = some ta → b.time = some tb → ta ≤ tb →
      (block_border a b = false ↔
        (b.sender = a.sender ∧ tb - ta ≤ BLOCK_MERGE_INTERVAL))) ∧
    (∀ a b : EventLike, (a.time = none ∨ b.time = none ∨ b.sender ≠ a.sender) →
      block_border a b = true) := by
  refine ⟨?_, ?_, ?_, ?_, ?_⟩
  · cases evts with
    | nil => rfl
    | cons e rest => simpa [rebuild_blocks] using rbGo_flatten rest [e]
  · cases evts with
    | nil => intro bl hbl; simp [rebuild_blocks] at hbl
    | cons e rest => exact fun bl hbl => rbGo_chain_within rest [e] (by simp) bl hbl
  · cases evts with
    | nil => simp [rebuild_blocks]
    | cons e rest => exact rbGo_chain_border rest [e]
  · intro a b ta tb hta htb _
    rw [block_border_eq_false_iff]
    constructor
    · rintro ⟨hs, ta2, tb2, h1, h2, h3⟩
      rw [hta] at h1
      rw [htb] at h2
      injection h1 with h1
      injection h2 with h2
      subst h1; subst h2
      exact ⟨hs, h3⟩
    · rintro ⟨hs, h3⟩
      exact ⟨hs, ta, tb, hta, htb, h3⟩
  · intro a b h
    rcases h with h | h | h
    · cases hbt : b.time <;> simp [block_border, h, hbt]
    · simp [block_border, h]
    · simp [block_border, h]

/-- C10: every block produced by a rebuild is a non-empty run; every
event of the run has a timestamp unless the run is a singleton whose
event lacks one; and whenever the run's first event has a timestamp the
EventBlock constructor's time pair is defined and taken from the first
and last events' timestamps, both present. -/
theorem c10_block_invariant (evts : List EventLike) (bl : List EventLike)
    (hbl : bl ∈ rebuild_blocks evts) :
    bl ≠ [] ∧
    ((∀ e ∈ bl, e.time.isSome) ∨ (∃ e, bl = [e] ∧ e.time = none)) ∧
    (∀ front, bl.head? = some front → front.time.isSome →
      ∃ ts te lastE, blockTimeInfo bl = some (some (ts, te)) ∧
        front.time = some ts ∧ bl.getLast? = some lastE ∧ lastE.time = some te) := by
  have hne : bl ≠ [] := by
    cases evts with
    | nil => simp [rebuild_blocks] at hbl
    | cons e rest => exact rbGo_nonempty rest [e] (by simp) bl hbl
  have hchain : List.Chain' (fun a b => block_border a b = false) bl := by
    cases evts with
    | nil => simp [rebuild_blocks] at hbl
    | cons e rest => exact rbGo_chain_within rest [e] (by simp) bl hbl
  refine ⟨hne, ?_, ?_⟩
  · cases bl with
    | nil => exact absurd rfl hne
    | cons x rest =>
      cases rest with
      | nil =>
        cases hx : x.time
        · exact Or.inr ⟨x, rfl, hx⟩
        · exact Or.inl (by intro e he; rw [List.mem_singleton] at he; subst he; simp [hx])
      | cons y rest2 =>
        exact Or.inl (chain_nonborder_all_times (x :: y :: rest2) hchain (by simp))
  · intro front hhead hfront
    obtain ⟨ts, hts⟩ := Option.isSome_iff_exists.mp hfront
    obtain ⟨lastE, hlastE⟩ : ∃ lastE, bl.getLast? = some lastE := by
      cases h : bl.getLast?
      · exact absurd (List.getLast?_eq_none_iff.mp h) hne
      · exact ⟨_, rfl⟩
    have hlt : lastE.time.isSome := by
      cases bl with
      | nil => exact absurd rfl hne
      | cons x rest =>
        cases rest with
        | nil =>
          have h1 : front = x := by simpa using hhead.symm
          have h2 : lastE = x := by simpa using hlastE.symm
          rw [h2, ← h1]
          exact hfront
        | cons y rest2 =>
          exact chain_nonborder_all_times (x :: y :: rest2) hchain (by simp) lastE
            (List.mem_of_mem_getLast? (by simp [hlastE]))
    obtain ⟨te, hte⟩ := Option.isSome_iff_exists.mp hlt
    refine ⟨ts, te, lastE, ?_, hts, hlastE, hte⟩
    simp [blockTimeInfo, hhead, hts, hlastE, hte]

/-- Witness for C3: concrete adjacent events by the same sender one
minute apart satisfy the merge condition. -/
theorem c3_witness : block_border eA eB = false :=
  ((c3_boundary_rule [eA, eB]).2.2.2.1 eA eB 0 60000 rfl rfl (by decide)).mpr
    ⟨rfl, by decide⟩

/-- Witness for C10 on the concrete two-event block produced from eA
and eB. -/
theorem c10_witness :
    ([eA, eB] : List EventLike) ≠ [] ∧
    ((∀ e ∈ ([eA, eB] : List EventLike), e.time.isSome) ∨
      (∃ e, [eA, eB] = [e] ∧ e.time = none)) ∧
    (∀ front, ([eA, eB] : List EventLike).head? = some front → front.time.isSome →
      ∃ ts te lastE, blockTimeInfo [eA, eB] = some (some (ts, te)) ∧
        front.time = some ts ∧ ([eA, eB] : List EventLike).getLast? = some lastE ∧
        lastE.time = some te) :=
  c10_block_invariant [eA, eB] [eA, eB] (by decide)

end Nachat
